import Mathlib

/-!
Verification of the psule-profile job dispatcher and its surrounding
operations, shallowly embedded from the TypeScript sources.

Source map:
* src/unnamed/part_000 (the App component): STYLES / STYLE_KEYS, the
  GeneratedImage record, handleGenerateClick (queue + fixed worker pool),
  processStyle, handleRegenerateStyle, handleDownloadAlbum.
* src/lib/imageUtils.ts: loadImage, addWatermark.

Modelling conventions:
* JavaScript objects used as string-keyed maps (generatedImages, the
  album imageData) are embedded as insertion-ordered association lists;
  the spread update (prev with key k set to v) replaces the value in
  place when the key exists and appends otherwise.
* The asynchronous worker pool is embedded as a small-step transition
  relation: workers interleave only at await points, and the synchronous
  segment from the while-condition check through stylesQueue.shift() up
  to the first await inside processStyle is a single atomic step, as in
  the single-threaded JS event loop.  The two consecutive awaits inside
  processStyle (generateStyledImage, then addWatermark) touch no shared
  state between them, so they form one suspended "running" phase whose
  outcome is decided by the two external call parameters.
* External calls (generateStyledImage and, inside the dispatcher,
  addWatermark) are abstract parameters returning success or a thrown
  value; a separate, finer model of addWatermark from imageUtils.ts is
  given for the watermark claim.
-/

namespace Psule

/-- type ImageStatus = 'pending' | 'done' | 'error' (part_000 line 66). -/
inductive ImageStatus where
  | pending
  | done
  | error
deriving DecidableEq, Repr

/-- interface GeneratedImage (part_000 lines 67-71): a status tag with two
independent optional fields, exactly as in the source. -/
structure GeneratedImage where
  status : ImageStatus
  url : Option String := none
  error : Option String := none
deriving DecidableEq, Repr

/-- A thrown JavaScript value as observed by the catch blocks: either an
Error instance carrying a message, or any other value. -/
inductive Thrown where
  | errorInstance (message : String)
  | nonError
deriving DecidableEq, Repr

/-- err instanceof Error ? err.message : "An unknown error occurred."
(part_000 lines 140 and 184). -/
def errorMessage : Thrown → String
  | Thrown.errorInstance m => m
  | Thrown.nonError => "An unknown error occurred."

/-- The entry written at initialization and at the start of a re-run:
an object with only the status field (url and error absent). -/
def pendingEntry : GeneratedImage :=
  { status := ImageStatus.pending }

/-- The STYLES object (part_000 lines 14-51), key to display name.  Each
entry also carries a long natural-language prompt string that is passed
verbatim to the abstract external generateStyledImage call and never
inspected by the code under verification; the prompt payloads are
absorbed into the external-call parameter of the dispatcher model. -/
def STYLES : List (String × String) :=
  [("digital-painting", "Digital Painting"),
   ("watercolor", "Watercolor"),
   ("sketch", "Sketch"),
   ("vaporwave", "Pastel Pop"),
   ("3d-render", "3D Render"),
   ("impressionism", "Impressionism"),
   ("pop-art", "Pop Art"),
   ("anime", "Anime"),
   ("comic-book", "Comic Book")]

/-- const STYLE_KEYS = Object.keys(STYLES) (part_000 line 53). -/
def STYLE_KEYS : List String := STYLES.map Prod.fst

/-- const concurrencyLimit = 3 (part_000 line 127). -/
def concurrencyLimit : Nat := 3

/-- The body of processStyle (part_000 lines 130-147) and of the retry part
of handleRegenerateStyle (lines 175-190): await generateStyledImage, then
await addWatermark on its result, writing a done entry on success; any
throw is caught and written as an error entry with errorMessage applied to
the thrown value.  g abstracts the generateStyledImage call (the cropped
image and the per-key prompt are fixed inside one dispatch), w abstracts
the addWatermark call. -/
def runJob (g w : String → Except Thrown String) (k : String) : GeneratedImage :=
  match g k with
  | Except.error e => { status := ImageStatus.error, error := some (errorMessage e) }
  | Except.ok resultUrl =>
    match w resultUrl with
    | Except.error e => { status := ImageStatus.error, error := some (errorMessage e) }
    | Except.ok watermarkedUrl => { status := ImageStatus.done, url := some watermarkedUrl }

/-! ## String-keyed records (JavaScript objects as association lists) -/

/-- obj[k] on a JS object embedded as an insertion-ordered list. -/
def lookupKey {α : Type} : List (String × α) → String → Option α
  | [], _ => none
  | p :: rest, k => if p.1 = k then some p.2 else lookupKey rest k

/-- The spread update (prev with computed key k set to v): replaces in
place when present, appends otherwise. -/
def setKey {α : Type} (r : List (String × α)) (k : String) (v : α) : List (String × α) :=
  if r.any (fun p => p.1 = k) then
    r.map (fun p => if p.1 = k then (k, v) else p)
  else r ++ [(k, v)]

/-- Object.keys. -/
def recKeys {α : Type} (r : List (String × α)) : List String := r.map Prod.fst

theorem any_key_iff {α : Type} (r : List (String × α)) (k : String) :
    r.any (fun p => p.1 = k) = true ↔ k ∈ recKeys r := by
  induction r with
  | nil => simp [recKeys]
  | cons p rest ih =>
    simp only [List.any_cons, Bool.or_eq_true, decide_eq_true_eq, recKeys, List.map_cons,
      List.mem_cons, ih]
    constructor
    · rintro (h | h)
      · exact Or.inl h.symm
      · exact Or.inr h
    · rintro (h | h)
      · exact Or.inl h.symm
      · exact Or.inr h

theorem lookupKey_map_replace {α : Type} (r : List (String × α)) (k : String) (v : α) :
    lookupKey (r.map (fun p => if p.1 = k then (k, v) else p)) k =
      (lookupKey r k).map (fun _ => v) := by
  induction r with
  | nil => rfl
  | cons p rest ih =>
    by_cases h : p.1 = k
    · simp [lookupKey, h]
    · simp [lookupKey, h, ih]

theorem lookupKey_map_replace_ne {α : Type} (r : List (String × α)) (k k' : String) (v : α)
    (h : k' ≠ k) :
    lookupKey (r.map (fun p => if p.1 = k then (k, v) else p)) k' = lookupKey r k' := by
  induction r with
  | nil => rfl
  | cons p rest ih =>
    rw [List.map_cons]
    by_cases hp : p.1 = k
    · rw [if_pos hp]
      have hkk' : ¬ ((k, v) : String × α).1 = k' := fun hk => h hk.symm
      rw [lookupKey, if_neg hkk', ih, lookupKey,
        if_neg (show ¬ p.1 = k' by rw [hp]; exact fun hk => h hk.symm)]
    · rw [if_neg hp, lookupKey, lookupKey]
      by_cases hp' : p.1 = k'
      · rw [if_pos hp', if_pos hp']
      · rw [if_neg hp', if_neg hp', ih]

theorem lookupKey_append_single {α : Type} (r : List (String × α)) (k : String) (v : α) :
    lookupKey (r ++ [(k, v)]) k = some ((lookupKey r k).getD v) := by
  induction r with
  | nil => simp [lookupKey]
  | cons p rest ih =>
    by_cases h : p.1 = k
    · simp [lookupKey, h]
    · simp [lookupKey, h, ih]

theorem lookupKey_append_single_ne {α : Type} (r : List (String × α)) (k k' : String) (v : α)
    (h : k' ≠ k) :
    lookupKey (r ++ [(k, v)]) k' = lookupKey r k' := by
  induction r with
  | nil =>
    have : ¬ k = k' := fun hk => h hk.symm
    simp [lookupKey, this]
  | cons p rest ih =>
    by_cases hp : p.1 = k'
    · simp [lookupKey, hp]
    · simp [lookupKey, hp, ih]

theorem lookupKey_isSome_iff_mem {α : Type} (r : List (String × α)) (k : String) :
    (lookupKey r k).isSome = true ↔ k ∈ recKeys r := by
  induction r with
  | nil => simp [lookupKey, recKeys]
  | cons p rest ih =>
    by_cases h : p.1 = k
    · simp [lookupKey, h, recKeys]
    · have : ¬ k = p.1 := fun hk => h hk.symm
      simp [lookupKey, h, recKeys, this, ih.trans Iff.rfl]

theorem lookupKey_setKey_self {α : Type} (r : List (String × α)) (k : String) (v : α) :
    lookupKey (setKey r k v) k = some v := by
  unfold setKey
  by_cases h : r.any (fun p => p.1 = k) = true
  · rw [if_pos h, lookupKey_map_replace]
    have hmem : k ∈ recKeys r := (any_key_iff r k).mp h
    have : (lookupKey r k).isSome = true := (lookupKey_isSome_iff_mem r k).mpr hmem
    cases hv : lookupKey r k with
    | none => rw [hv] at this; simp at this
    | some x => simp
  · rw [if_neg h, lookupKey_append_single]
    have hmem : k ∉ recKeys r := fun hm => h ((any_key_iff r k).mpr hm)
    have : (lookupKey r k).isSome ≠ true := fun hs => hmem ((lookupKey_isSome_iff_mem r k).mp hs)
    cases hv : lookupKey r k with
    | none => simp
    | some x => rw [hv] at this; simp at this

theorem lookupKey_setKey_ne {α : Type} (r : List (String × α)) (k k' : String) (v : α)
    (h : k' ≠ k) :
    lookupKey (setKey r k v) k' = lookupKey r k' := by
  unfold setKey
  by_cases hb : r.any (fun p => p.1 = k) = true
  · rw [if_pos hb, lookupKey_map_replace_ne _ _ _ _ h]
  · rw [if_neg hb, lookupKey_append_single_ne _ _ _ _ h]

theorem recKeys_setKey {α : Type} (r : List (String × α)) (k : String) (v : α) :
    recKeys (setKey r k v) = if k ∈ recKeys r then recKeys r else recKeys r ++ [k] := by
  unfold setKey
  by_cases hb : r.any (fun p => p.1 = k) = true
  · rw [if_pos hb, if_pos ((any_key_iff r k).mp hb)]
    unfold recKeys
    rw [List.map_map]
    apply List.map_congr_left
    intro p _
    by_cases hp : p.1 = k
    · simp [hp, Function.comp]
    · simp [hp, Function.comp]
  · have : k ∉ recKeys r := fun hm => hb ((any_key_iff r k).mpr hm)
    rw [if_neg hb, if_neg this]
    simp [recKeys]

theorem mem_recKeys_setKey {α : Type} (r : List (String × α)) (k k' : String) (v : α)
    (h : k' ∈ recKeys r) : k' ∈ recKeys (setKey r k v) := by
  rw [recKeys_setKey]
  by_cases hm : k ∈ recKeys r
  · rw [if_pos hm]; exact h
  · rw [if_neg hm]; exact List.mem_append_left _ h

theorem self_mem_recKeys_setKey {α : Type} (r : List (String × α)) (k : String) (v : α) :
    k ∈ recKeys (setKey r k v) := by
  rw [recKeys_setKey]
  by_cases hm : k ∈ recKeys r
  · rw [if_pos hm]; exact hm
  · rw [if_neg hm]; exact List.mem_append_right _ (List.mem_singleton.mpr rfl)

theorem length_setKey_le {α : Type} (r : List (String × α)) (k : String) (v : α) :
    (setKey r k v).length ≤ r.length + 1 := by
  unfold setKey
  by_cases hb : r.any (fun p => p.1 = k) = true
  · rw [if_pos hb, List.length_map]; omega
  · rw [if_neg hb, List.length_append]; simp

theorem lookupKey_none_of_not_mem {α : Type} (r : List (String × α)) (k : String)
    (h : k ∉ recKeys r) : lookupKey r k = none := by
  cases hv : lookupKey r k with
  | none => rfl
  | some x =>
    exact absurd ((lookupKey_isSome_iff_mem r k).mp (by rw [hv]; rfl)) h

theorem lookupKey_mem {α : Type} (r : List (String × α)) (k : String) (v : α)
    (h : lookupKey r k = some v) : (k, v) ∈ r := by
  induction r with
  | nil => simp [lookupKey] at h
  | cons p rest ih =>
    by_cases hp : p.1 = k
    · rw [lookupKey, if_pos hp] at h
      have : p = (k, v) := by
        cases p with
        | mk a b =>
          simp only [Option.some.injEq] at h
          simp_all
      exact this ▸ List.mem_cons_self _ _
    · rw [lookupKey, if_neg hp] at h
      exact List.mem_cons_of_mem _ (ih h)

theorem exists_lookupKey_of_mem {α : Type} (r : List (String × α)) (k : String)
    (h : k ∈ recKeys r) : ∃ v, lookupKey r k = some v := by
  have := (lookupKey_isSome_iff_mem r k).mpr h
  cases hv : lookupKey r k with
  | none => rw [hv] at this; simp at this
  | some v => exact ⟨v, rfl⟩

theorem lookupKey_of_mem_nodup {α : Type} (r : List (String × α)) (k : String) (v : α)
    (hn : (recKeys r).Nodup) (h : (k, v) ∈ r) : lookupKey r k = some v := by
  induction r with
  | nil => simp at h
  | cons p rest ih =>
    rcases List.mem_cons.mp h with h | h
    · rw [← h]; simp [lookupKey]
    · have hk : k ∈ recKeys rest := List.mem_map.mpr ⟨(k, v), h, rfl⟩
      have hp : p.1 ≠ k := by
        intro he
        have : p.1 ∉ recKeys rest := (List.nodup_cons.mp hn).1
        exact this (he ▸ hk)
      rw [lookupKey, if_neg hp]
      exact ih (List.nodup_cons.mp hn).2 h

/-! ## The bounded-concurrency dispatcher (handleGenerateClick, lines 116-161)

handleGenerateClick seeds generatedImages with every style key pending,
copies STYLE_KEYS into a shared stylesQueue, starts concurrencyLimit
async workers, each looping: while the queue is nonempty, shift one key
(synchronously, hence atomically) and, when the shifted key is truthy,
await processStyle on it; then awaits Promise.all(workers) and flips
appState to results-shown.  The model below is that system as a
small-step relation; allFinished marks the instant Promise.all resolves.
-/

/-- The control point of one worker closure (part_000 lines 149-156). -/
inductive WorkerPC where
  | atLoop
  | running (key : String)
  | finished
deriving DecidableEq, Repr

/-- The shared state of one dispatch call.  claimed instruments the model:
it records, in order, every key on which processStyle was started. -/
structure DispatchState where
  stylesQueue : List String
  workers : List WorkerPC
  generatedImages : List (String × GeneratedImage)
  claimed : List String
deriving DecidableEq, Repr

/-- initialImages (part_000 lines 121-125): every style key set pending,
starting from the empty object. -/
def initImages (keys : List String) : List (String × GeneratedImage) :=
  keys.foldl (fun acc k => setKey acc k pendingEntry) []

/-- The dispatch state right after the queue and the worker array are
created (part_000 lines 121-156). -/
def initState (keys : List String) (c : Nat) : DispatchState :=
  { stylesQueue := keys
    workers := List.replicate c WorkerPC.atLoop
    generatedImages := initImages keys
    claimed := [] }

/-- One interleaving step of the worker pool.
* claim: the synchronous segment from the while check through shift up to
  the first await of processStyle, for a truthy key.
* claimSkip: the same segment when the shifted key is falsy (empty
  string): the if guard skips processStyle and the worker loops again.
* exitLoop: the while check fails on an empty queue and the worker ends.
* settle: processStyle resolves; its try/catch writes the terminal entry
  for the claimed key through the functional state update. -/
inductive Step (g w : String → Except Thrown String) : DispatchState → DispatchState → Prop where
  | claim (s : DispatchState) (i : Nat) (k : String) (rest : List String) :
      s.workers[i]? = some WorkerPC.atLoop →
      s.stylesQueue = k :: rest →
      k ≠ "" →
      Step g w s
        { stylesQueue := rest
          workers := s.workers.set i (WorkerPC.running k)
          generatedImages := s.generatedImages
          claimed := s.claimed ++ [k] }
  | claimSkip (s : DispatchState) (i : Nat) (rest : List String) :
      s.workers[i]? = some WorkerPC.atLoop →
      s.stylesQueue = "" :: rest →
      Step g w s
        { stylesQueue := rest
          workers := s.workers
          generatedImages := s.generatedImages
          claimed := s.claimed }
  | exitLoop (s : DispatchState) (i : Nat) :
      s.workers[i]? = some WorkerPC.atLoop →
      s.stylesQueue = [] →
      Step g w s
        { stylesQueue := []
          workers := s.workers.set i WorkerPC.finished
          generatedImages := s.generatedImages
          claimed := s.claimed }
  | settle (s : DispatchState) (i : Nat) (k : String) :
      s.workers[i]? = some (WorkerPC.running k) →
      Step g w s
        { stylesQueue := s.stylesQueue
          workers := s.workers.set i WorkerPC.atLoop
          generatedImages := setKey s.generatedImages k (runJob g w k)
          claimed := s.claimed }

/-- All interleavings of the dispatch. -/
abbrev Reachable (g w : String → Except Thrown String) : DispatchState → DispatchState → Prop :=
  Relation.ReflTransGen (Step g w)

/-- The instant Promise.all(workers) resolves (part_000 line 158). -/
def allFinished (s : DispatchState) : Prop :=
  ∀ pc ∈ s.workers, pc = WorkerPC.finished

instance (s : DispatchState) : Decidable (allFinished s) :=
  inferInstanceAs (Decidable (∀ pc ∈ s.workers, pc = WorkerPC.finished))

/-- The keys claimed but not yet settled: one per worker currently inside
await processStyle. -/
def runningKeys (s : DispatchState) : List String :=
  s.workers.filterMap fun pc =>
    match pc with
    | WorkerPC.running k => some k
    | _ => none

/-! ## List index helpers -/

theorem getq_set_self {α : Type} :
    ∀ (l : List α) (i : Nat) (a : α), i < l.length → (l.set i a)[i]? = some a
  | _ :: _, 0, _, _ => by simp
  | x :: xs, i + 1, a, h => by
      rw [show (x :: xs).set (i + 1) a = x :: xs.set i a from rfl]
      simpa using getq_set_self xs i a (by simpa using h)

theorem getq_set_ne {α : Type} :
    ∀ (l : List α) (i j : Nat) (a : α), i ≠ j → (l.set i a)[j]? = l[j]?
  | [], _, _, _, _ => by simp
  | x :: xs, 0, 0, a, h => absurd rfl h
  | x :: xs, 0, j + 1, a, _ => by simp
  | x :: xs, i + 1, 0, a, _ => by simp
  | x :: xs, i + 1, j + 1, a, h =>
    by simpa using getq_set_ne xs i j a (fun he => h (by rw [he]))

theorem set_getq_eq {α : Type} :
    ∀ (l : List α) (i : Nat) (a : α), l[i]? = some a → l.set i a = l
  | [], i, a, h => by simp at h
  | x :: xs, 0, a, h => by
      simp only [List.getElem?_cons_zero, Option.some.injEq] at h
      rw [List.set, h]
  | x :: xs, i + 1, a, h => by
      simp only [List.getElem?_cons_succ] at h
      rw [List.set, set_getq_eq xs i a h]

theorem lt_length_of_getq {α : Type} :
    ∀ {l : List α} {i : Nat} {a : α}, l[i]? = some a → i < l.length
  | [], i, a, h => by simp at h
  | x :: xs, 0, a, _ => by simp
  | x :: xs, i + 1, a, h => by
      simp only [List.getElem?_cons_succ] at h
      simpa using Nat.succ_lt_succ (lt_length_of_getq h)

theorem mem_of_getq {α : Type} :
    ∀ {l : List α} {i : Nat} {a : α}, l[i]? = some a → a ∈ l
  | [], i, a, h => by simp at h
  | x :: xs, 0, a, h => by
      simp only [List.getElem?_cons_zero, Option.some.injEq] at h
      exact h ▸ List.mem_cons_self _ _
  | x :: xs, i + 1, a, h => by
      simp only [List.getElem?_cons_succ] at h
      exact List.mem_cons_of_mem _ (mem_of_getq h)

theorem getq_of_mem {α : Type} :
    ∀ {l : List α} {a : α}, a ∈ l → ∃ i : Nat, l[i]? = some a
  | [], a, h => by simp at h
  | x :: xs, a, h => by
      rcases List.mem_cons.mp h with h | h
      · exact ⟨0, by simp [h]⟩
      · obtain ⟨i, hi⟩ := getq_of_mem h
        exact ⟨i + 1, by simpa using hi⟩

theorem getq_replicate {α : Type} {n i : Nat} {a x : α}
    (h : (List.replicate n a)[i]? = some x) : x = a := by
  have := mem_of_getq h
  exact List.eq_of_mem_replicate this

/-! ## Initial record -/

theorem initImages_aux :
    ∀ (keys : List String) (acc : List (String × GeneratedImage)),
      (∀ k ∈ keys, k ∉ recKeys acc) → keys.Nodup →
      keys.foldl (fun a k => setKey a k pendingEntry) acc =
        acc ++ keys.map (fun k => (k, pendingEntry))
  | [], acc, _, _ => by simp
  | k :: rest, acc, hfresh, hnd => by
      have hk : k ∉ recKeys acc := hfresh k (List.mem_cons_self _ _)
      have hset : setKey acc k pendingEntry = acc ++ [(k, pendingEntry)] := by
        unfold setKey
        rw [if_neg (fun hb => hk ((any_key_iff acc k).mp hb))]
      have hnd' := (List.nodup_cons.mp hnd)
      have hfresh' : ∀ k' ∈ rest, k' ∉ recKeys (acc ++ [(k, pendingEntry)]) := by
        intro k' hk' hmem
        rw [recKeys, List.map_append] at hmem
        rcases List.mem_append.mp hmem with h | h
        · exact hfresh k' (List.mem_cons_of_mem _ hk') h
        · simp only [List.map_cons, List.map_nil, List.mem_singleton] at h
          exact hnd'.1 (h ▸ hk')
      rw [List.foldl_cons, hset, initImages_aux rest _ hfresh' hnd'.2, List.append_assoc]
      rfl

theorem initImages_eq (keys : List String) (h : keys.Nodup) :
    initImages keys = keys.map fun k => (k, pendingEntry) := by
  unfold initImages
  rw [initImages_aux keys [] (by intro k _ hm; simp [recKeys] at hm) h]
  simp

theorem recKeys_initImages (keys : List String) (h : keys.Nodup) :
    recKeys (initImages keys) = keys := by
  rw [initImages_eq keys h, recKeys, List.map_map]
  have hcomp : (Prod.fst ∘ fun k : String => (k, pendingEntry)) = id := rfl
  rw [hcomp, List.map_id]

theorem lookupKey_initImages (keys : List String) (h : keys.Nodup) {k : String}
    (hk : k ∈ keys) : lookupKey (initImages keys) k = some pendingEntry := by
  rw [initImages_eq keys h]
  clear h
  induction keys with
  | nil => simp at hk
  | cons a rest ih =>
    rcases List.mem_cons.mp hk with hk | hk
    · simp [lookupKey, hk.symm]
    · by_cases ha : a = k
      · simp [lookupKey, ha]
      · rw [List.map_cons, lookupKey, if_neg ha]
        exact ih hk

/-! ## The dispatch invariant -/

/-- The inductive invariant of a dispatch call: the claimed prefix and the
queue partition the key list; a running key was claimed, by exactly one
worker; the record covers exactly the key list; keys still queued or in
flight are pending; claimed keys whose worker has settled carry the
terminal entry determined by the two external calls; once any worker has
finished, the queue is empty. -/
structure Inv (keys : List String) (g w : String → Except Thrown String)
    (s : DispatchState) : Prop where
  split : s.claimed ++ s.stylesQueue = keys
  runClaimed : ∀ (i : Nat) (k : String),
    s.workers[i]? = some (WorkerPC.running k) → k ∈ s.claimed
  runUnique : ∀ (i j : Nat) (k : String),
    s.workers[i]? = some (WorkerPC.running k) →
    s.workers[j]? = some (WorkerPC.running k) → i = j
  genDom : recKeys s.generatedImages = keys
  genPending : ∀ k : String,
    (k ∈ s.stylesQueue ∨ ∃ i : Nat, s.workers[i]? = some (WorkerPC.running k)) →
    lookupKey s.generatedImages k = some pendingEntry
  genSettled : ∀ k : String, k ∈ s.claimed →
    (∀ i : Nat, s.workers[i]? ≠ some (WorkerPC.running k)) →
    lookupKey s.generatedImages k = some (runJob g w k)
  finishedQueue : ∀ i : Nat,
    s.workers[i]? = some WorkerPC.finished → s.stylesQueue = []

theorem invInit {keys : List String} {g w : String → Except Thrown String}
    (hn : keys.Nodup) (c : Nat) : Inv keys g w (initState keys c) := by
  refine ⟨?_, ?_, ?_, ?_, ?_, ?_, ?_⟩
  · simp [initState]
  · intro i k hg
    exact absurd (getq_replicate hg) (by simp)
  · intro i j k hg _
    exact absurd (getq_replicate hg) (by simp)
  · exact recKeys_initImages keys hn
  · intro k hcond
    rcases hcond with hq | ⟨i, hg⟩
    · exact lookupKey_initImages keys hn hq
    · exact absurd (getq_replicate hg) (by simp)
  · intro k hk
    simp [initState] at hk
  · intro i hg
    exact absurd (getq_replicate hg) (by simp)

theorem invPreserve {keys : List String} {g w : String → Except Thrown String}
    {s s' : DispatchState} (hn : keys.Nodup) (hne : "" ∉ keys)
    (hi : Inv keys g w s) (hs : Step g w s s') : Inv keys g w s' := by
  have hdisj : ∀ a ∈ s.claimed, a ∉ s.stylesQueue := by
    have hnodup : (s.claimed ++ s.stylesQueue).Nodup := by rw [hi.split]; exact hn
    exact fun a ha hq => (List.nodup_append.mp hnodup).2.2 ha hq
  cases hs with
  | claim i k rest hget hq hk =>
    have hlen : i < s.workers.length := lt_length_of_getq hget
    have hkq : k ∈ s.stylesQueue := by rw [hq]; exact List.mem_cons_self _ _
    refine ⟨?_, ?_, ?_, ?_, ?_, ?_, ?_⟩
    · show (s.claimed ++ [k]) ++ rest = keys
      rw [List.append_assoc, List.singleton_append, ← hq]
      exact hi.split
    · intro i' k' hg'
      by_cases hii : i' = i
      · subst hii
        rw [getq_set_self _ _ _ hlen] at hg'
        have : k = k' := by
          have := Option.some.inj hg'
          exact WorkerPC.running.inj this
        exact this ▸ List.mem_append_right _ (List.mem_singleton.mpr rfl)
      · rw [getq_set_ne _ i i' _ (fun he => hii he.symm)] at hg'
        exact List.mem_append_left _ (hi.runClaimed i' k' hg')
    · intro i' j' k' h1 h2
      by_cases hii : i' = i
      · by_cases hjj : j' = i
        · rw [hii, hjj]
        · subst hii
          rw [getq_set_self _ _ _ hlen] at h1
          have hk'k : k = k' := WorkerPC.running.inj (Option.some.inj h1)
          rw [getq_set_ne _ _ j' _ (fun he => hjj he.symm)] at h2
          have : k' ∈ s.claimed := hi.runClaimed j' k' h2
          exact absurd hkq (hdisj k (hk'k ▸ this))
      · by_cases hjj : j' = i
        · subst hjj
          rw [getq_set_self _ _ _ hlen] at h2
          have hk'k : k = k' := WorkerPC.running.inj (Option.some.inj h2)
          rw [getq_set_ne _ _ i' _ (fun he => hii he.symm)] at h1
          have : k' ∈ s.claimed := hi.runClaimed i' k' h1
          exact absurd hkq (hdisj k (hk'k ▸ this))
        · rw [getq_set_ne _ i i' _ (fun he => hii he.symm)] at h1
          rw [getq_set_ne _ i j' _ (fun he => hjj he.symm)] at h2
          exact hi.runUnique i' j' k' h1 h2
    · exact hi.genDom
    · intro k' hcond
      apply hi.genPending
      rcases hcond with hq' | ⟨i', hg'⟩
      · exact Or.inl (by rw [hq]; exact List.mem_cons_of_mem _ hq')
      · by_cases hii : i' = i
        · subst hii
          rw [getq_set_self _ _ _ hlen] at hg'
          have : k = k' := WorkerPC.running.inj (Option.some.inj hg')
          exact Or.inl (this ▸ hkq)
        · rw [getq_set_ne _ i i' _ (fun he => hii he.symm)] at hg'
          exact Or.inr ⟨i', hg'⟩
    · intro k' hkc hnrun
      rcases List.mem_append.mp hkc with hkc | hkc
      · apply hi.genSettled k' hkc
        intro i' hg'
        by_cases hii : i' = i
        · subst hii
          rw [hget] at hg'
          exact WorkerPC.noConfusion (Option.some.inj hg')
        · apply hnrun i'
          rw [getq_set_ne _ i i' _ (fun he => hii he.symm)]
          exact hg'
      · have hk'k : k' = k := List.mem_singleton.mp hkc
        exfalso
        apply hnrun i
        rw [getq_set_self _ _ _ hlen, hk'k]
    · intro i' hg'
      by_cases hii : i' = i
      · subst hii
        rw [getq_set_self _ _ _ hlen] at hg'
        exact WorkerPC.noConfusion (Option.some.inj hg')
      · rw [getq_set_ne _ i i' _ (fun he => hii he.symm)] at hg'
        have := hi.finishedQueue i' hg'
        exact absurd (this ▸ hq) (by simp)
  | claimSkip i rest hget hq =>
    exfalso
    apply hne
    rw [← hi.split]
    exact List.mem_append_right _ (by rw [hq]; exact List.mem_cons_self _ _)
  | exitLoop i hget hq =>
    refine ⟨?_, ?_, ?_, ?_, ?_, ?_, ?_⟩
    · show s.claimed ++ [] = keys
      rw [List.append_nil]
      have := hi.split
      rw [hq, List.append_nil] at this
      exact this
    · intro i' k' hg'
      by_cases hii : i' = i
      · subst hii
        rw [getq_set_self _ _ _ (lt_length_of_getq hget)] at hg'
        exact WorkerPC.noConfusion (Option.some.inj hg')
      · rw [getq_set_ne _ i i' _ (fun he => hii he.symm)] at hg'
        exact hi.runClaimed i' k' hg'
    · intro i' j' k' h1 h2
      by_cases hii : i' = i
      · subst hii
        rw [getq_set_self _ _ _ (lt_length_of_getq hget)] at h1
        exact WorkerPC.noConfusion (Option.some.inj h1)
      · by_cases hjj : j' = i
        · subst hjj
          rw [getq_set_self _ _ _ (lt_length_of_getq hget)] at h2
          exact WorkerPC.noConfusion (Option.some.inj h2)
        · rw [getq_set_ne _ i i' _ (fun he => hii he.symm)] at h1
          rw [getq_set_ne _ i j' _ (fun he => hjj he.symm)] at h2
          exact hi.runUnique i' j' k' h1 h2
    · exact hi.genDom
    · intro k' hcond
      apply hi.genPending
      rcases hcond with hq' | ⟨i', hg'⟩
      · exact absurd hq' (List.not_mem_nil k')
      · by_cases hii : i' = i
        · subst hii
          rw [getq_set_self _ _ _ (lt_length_of_getq hget)] at hg'
          exact absurd (Option.some.inj hg') (by simp)
        · rw [getq_set_ne _ i i' _ (fun he => hii he.symm)] at hg'
          exact Or.inr ⟨i', hg'⟩
    · intro k' hkc hnrun
      apply hi.genSettled k' hkc
      intro i' hg'
      by_cases hii : i' = i
      · subst hii
        rw [hget] at hg'
        exact WorkerPC.noConfusion (Option.some.inj hg')
      · apply hnrun i'
        rw [getq_set_ne _ i i' _ (fun he => hii he.symm)]
        exact hg'
    · intro i' _
      rfl
  | settle i k hget =>
    have hlen : i < s.workers.length := lt_length_of_getq hget
    have hkc : k ∈ s.claimed := hi.runClaimed i k hget
    have hkin : k ∈ keys := by rw [← hi.split]; exact List.mem_append_left _ hkc
    have hknq : k ∉ s.stylesQueue := hdisj k hkc
    refine ⟨?_, ?_, ?_, ?_, ?_, ?_, ?_⟩
    · exact hi.split
    · intro i' k' hg'
      by_cases hii : i' = i
      · subst hii
        rw [getq_set_self _ _ _ hlen] at hg'
        exact WorkerPC.noConfusion (Option.some.inj hg')
      · rw [getq_set_ne _ i i' _ (fun he => hii he.symm)] at hg'
        exact hi.runClaimed i' k' hg'
    · intro i' j' k' h1 h2
      by_cases hii : i' = i
      · subst hii
        rw [getq_set_self _ _ _ hlen] at h1
        exact WorkerPC.noConfusion (Option.some.inj h1)
      · by_cases hjj : j' = i
        · subst hjj
          rw [getq_set_self _ _ _ hlen] at h2
          exact WorkerPC.noConfusion (Option.some.inj h2)
        · rw [getq_set_ne _ i i' _ (fun he => hii he.symm)] at h1
          rw [getq_set_ne _ i j' _ (fun he => hjj he.symm)] at h2
          exact hi.runUnique i' j' k' h1 h2
    · show recKeys (setKey s.generatedImages k (runJob g w k)) = keys
      rw [recKeys_setKey, hi.genDom, if_pos hkin]
    · intro k' hcond
      have hold : k' ∈ s.stylesQueue ∨
          ∃ i' : Nat, s.workers[i']? = some (WorkerPC.running k') := by
        rcases hcond with hq' | ⟨i', hg'⟩
        · exact Or.inl hq'
        · by_cases hii : i' = i
          · subst hii
            rw [getq_set_self _ _ _ hlen] at hg'
            exact WorkerPC.noConfusion (Option.some.inj hg')
          · rw [getq_set_ne _ i i' _ (fun he => hii he.symm)] at hg'
            exact Or.inr ⟨i', hg'⟩
      have hk'k : k' ≠ k := by
        intro he
        subst he
        rcases hold with hq' | ⟨i', hg'⟩
        · exact hknq hq'
        · have := hi.runUnique i' i k' hg' hget
          subst this
          rcases hcond with hq' | ⟨i'', hg''⟩
          · exact hknq hq'
          · by_cases hii : i'' = i'
            · subst hii
              rw [getq_set_self _ _ _ hlen] at hg''
              exact WorkerPC.noConfusion (Option.some.inj hg'')
            · rw [getq_set_ne _ i' i'' _ (fun he => hii he.symm)] at hg''
              exact hii (hi.runUnique i'' i' k' hg'' hg')
      show lookupKey (setKey s.generatedImages k (runJob g w k)) k' = some pendingEntry
      rw [lookupKey_setKey_ne _ _ _ _ hk'k]
      exact hi.genPending k' hold
    · intro k' hkc' hnrun
      by_cases hk'k : k' = k
      · subst hk'k
        show lookupKey (setKey s.generatedImages k' (runJob g w k')) k' = _
        rw [lookupKey_setKey_self]
      · show lookupKey (setKey s.generatedImages k (runJob g w k)) k' = _
        rw [lookupKey_setKey_ne _ _ _ _ hk'k]
        apply hi.genSettled k' hkc'
        intro i' hg'
        by_cases hii : i' = i
        · subst hii
          rw [hget] at hg'
          exact hk'k (WorkerPC.running.inj (Option.some.inj hg')).symm
        · apply hnrun i'
          rw [getq_set_ne _ i i' _ (fun he => hii he.symm)]
          exact hg'
    · intro i' hg'
      by_cases hii : i' = i
      · subst hii
        rw [getq_set_self _ _ _ hlen] at hg'
        exact WorkerPC.noConfusion (Option.some.inj hg')
      · rw [getq_set_ne _ i i' _ (fun he => hii he.symm)] at hg'
        exact hi.finishedQueue i' hg'

theorem invReachable {keys : List String} {g w : String → Except Thrown String}
    {c : Nat} {s : DispatchState} (hn : keys.Nodup) (hne : "" ∉ keys)
    (h : Reachable g w (initState keys c) s) : Inv keys g w s := by
  induction h with
  | refl => exact invInit hn c
  | tail hr hs ih => exact invPreserve hn hne ih hs

theorem workersLenReachable {keys : List String} {g w : String → Except Thrown String}
    {c : Nat} {s : DispatchState}
    (h : Reachable g w (initState keys c) s) : s.workers.length = c := by
  induction h with
  | refl => simp [initState]
  | tail hr hs ih =>
    cases hs with
    | claim i k rest hget hq hk =>
      show (List.set _ i _).length = c
      rw [List.length_set]; exact ih
    | claimSkip i rest hget hq => exact ih
    | exitLoop i hget hq =>
      show (List.set _ i _).length = c
      rw [List.length_set]; exact ih
    | settle i k hget =>
      show (List.set _ i _).length = c
      rw [List.length_set]; exact ih

theorem noRunningOfFinished {s : DispatchState} (hfin : allFinished s) :
    ∀ (i : Nat) (k : String), s.workers[i]? ≠ some (WorkerPC.running k) := by
  intro i k hg
  have := hfin _ (mem_of_getq hg)
  exact WorkerPC.noConfusion this

theorem queueNilOfFinished {keys : List String} {g w : String → Except Thrown String}
    {s : DispatchState} (hi : Inv keys g w s) (hfin : allFinished s)
    (hlen : 0 < s.workers.length) : s.stylesQueue = [] := by
  cases hw : s.workers with
  | nil => rw [hw] at hlen; simp at hlen
  | cons pc rest =>
    have hm : pc ∈ s.workers := by rw [hw]; exact List.mem_cons_self _ _
    have hpc : pc = WorkerPC.finished := hfin pc hm
    have hg : s.workers[0]? = some WorkerPC.finished := by rw [hw]; simp [hpc]
    exact hi.finishedQueue 0 hg

/-! ## Termination of the dispatch -/

/-- How much event-loop work one worker still owes: an idle loop head owes
the loop check, a running worker owes its settle and then the loop check. -/
def weight : WorkerPC → Nat
  | WorkerPC.atLoop => 1
  | WorkerPC.running _ => 2
  | WorkerPC.finished => 0

def wsum (l : List WorkerPC) : Nat := (l.map weight).sum

def measureOf (s : DispatchState) : Nat := 2 * s.stylesQueue.length + wsum s.workers

theorem wsum_set :
    ∀ (l : List WorkerPC) (i : Nat) (pc pc' : WorkerPC), l[i]? = some pc →
      wsum (l.set i pc') + weight pc = wsum l + weight pc'
  | [], i, pc, pc', h => by simp at h
  | x :: xs, 0, pc, pc', h => by
      simp only [List.getElem?_cons_zero, Option.some.injEq] at h
      subst h
      simp [wsum]
      omega
  | x :: xs, i + 1, pc, pc', h => by
      simp only [List.getElem?_cons_succ] at h
      have := wsum_set xs i pc pc' h
      rw [show (x :: xs).set (i + 1) pc' = x :: xs.set i pc' from rfl]
      simp only [wsum, List.map_cons, List.sum_cons] at this ⊢
      omega

theorem stepMeasure {g w : String → Except Thrown String} {s s' : DispatchState}
    (hs : Step g w s s') : measureOf s' < measureOf s := by
  cases hs with
  | claim i k rest hget hq hk =>
    have hw := wsum_set s.workers i WorkerPC.atLoop (WorkerPC.running k) hget
    have hql : s.stylesQueue.length = rest.length + 1 := by rw [hq]; rfl
    simp only [measureOf, weight] at *
    omega
  | claimSkip i rest hget hq =>
    have hql : s.stylesQueue.length = rest.length + 1 := by rw [hq]; rfl
    simp only [measureOf] at *
    omega
  | exitLoop i hget hq =>
    have hw := wsum_set s.workers i WorkerPC.atLoop WorkerPC.finished hget
    simp only [measureOf, weight, hq] at *
    omega
  | settle i k hget =>
    have hw := wsum_set s.workers i (WorkerPC.running k) WorkerPC.atLoop hget
    simp only [measureOf, weight] at *
    omega

theorem stepProgress {g w : String → Except Thrown String} {s : DispatchState}
    (h : ¬ allFinished s) : ∃ s', Step g w s s' := by
  have : ∃ pc, pc ∈ s.workers ∧ pc ≠ WorkerPC.finished := by
    by_contra hall
    push_neg at hall
    exact h hall
  obtain ⟨pc, hmem, hpc⟩ := this
  obtain ⟨i, hi⟩ := getq_of_mem hmem
  cases pc with
  | atLoop =>
    cases hq : s.stylesQueue with
    | nil => exact ⟨_, Step.exitLoop s i hi hq⟩
    | cons k rest =>
      by_cases hk : k = ""
      · exact ⟨_, Step.claimSkip s i rest hi (hk ▸ hq)⟩
      · exact ⟨_, Step.claim s i k rest hi hq hk⟩
  | running k => exact ⟨_, Step.settle s i k hi⟩
  | finished => exact absurd rfl hpc

/-- From any dispatch state, every fair continuation ends with all workers
finished; constructively, some interleaving reaches that point. -/
theorem eventuallyFinished (g w : String → Except Thrown String) (s : DispatchState) :
    ∃ s', Reachable g w s s' ∧ allFinished s' := by
  generalize hmn : measureOf s = n
  induction n using Nat.strong_induction_on generalizing s with
  | _ n ih =>
    by_cases hfin : allFinished s
    · exact ⟨s, Relation.ReflTransGen.refl, hfin⟩
    · obtain ⟨s2, hstep⟩ := stepProgress (g := g) (w := w) hfin
      have hlt : measureOf s2 < n := hmn ▸ stepMeasure hstep
      obtain ⟨s', hpath, hfin'⟩ := ih (measureOf s2) hlt s2 rfl
      exact ⟨s', Relation.ReflTransGen.head hstep hpath, hfin'⟩

/-- Once all workers have finished no step is enabled: the completion
signal is stable, it cannot fire a second time within one dispatch. -/
theorem finishedStable {g w : String → Except Thrown String} {s : DispatchState}
    (hfin : allFinished s) : ∀ s', ¬ Step g w s s' := by
  intro s' hs
  cases hs with
  | claim i k rest hget hq hk =>
    exact WorkerPC.noConfusion (hfin _ (mem_of_getq hget))
  | claimSkip i rest hget hq =>
    exact WorkerPC.noConfusion (hfin _ (mem_of_getq hget))
  | exitLoop i hget hq =>
    exact WorkerPC.noConfusion (hfin _ (mem_of_getq hget))
  | settle i k hget =>
    exact WorkerPC.noConfusion (hfin _ (mem_of_getq hget))

/-! ## A concrete full interleaving (worker 0 drains the queue, then all
workers observe the empty queue and exit) -/

theorem drainRun (g w : String → Except Thrown String) :
    ∀ (q : List String), (∀ k ∈ q, k ≠ "") →
    ∀ (ws : List WorkerPC), ws[0]? = some WorkerPC.atLoop →
    ∀ (gen : List (String × GeneratedImage)) (cl : List String),
    Reachable g w ⟨q, ws, gen, cl⟩
      ⟨[], ws, q.foldl (fun r k => setKey r k (runJob g w k)) gen, cl ++ q⟩
  | [], _, ws, _, gen, cl => by
      rw [List.foldl_nil, List.append_nil]
  | k :: rest, htr, ws, hws, gen, cl => by
      have hk : k ≠ "" := htr k (List.mem_cons_self _ _)
      have hlen : 0 < ws.length := lt_length_of_getq hws
      have step1 : Step g w ⟨k :: rest, ws, gen, cl⟩
          ⟨rest, ws.set 0 (WorkerPC.running k), gen, cl ++ [k]⟩ :=
        Step.claim ⟨k :: rest, ws, gen, cl⟩ 0 k rest hws rfl hk
      have hget1 : (ws.set 0 (WorkerPC.running k))[0]? = some (WorkerPC.running k) :=
        getq_set_self ws 0 (WorkerPC.running k) hlen
      have step2 : Step g w ⟨rest, ws.set 0 (WorkerPC.running k), gen, cl ++ [k]⟩
          ⟨rest, (ws.set 0 (WorkerPC.running k)).set 0 WorkerPC.atLoop,
            setKey gen k (runJob g w k), cl ++ [k]⟩ :=
        Step.settle ⟨rest, ws.set 0 (WorkerPC.running k), gen, cl ++ [k]⟩ 0 k hget1
      have hws2 : (ws.set 0 (WorkerPC.running k)).set 0 WorkerPC.atLoop = ws := by
        rw [List.set_set]
        exact set_getq_eq ws 0 WorkerPC.atLoop hws
      rw [hws2] at step2
      have htr' : ∀ k' ∈ rest, k' ≠ "" := fun k' hm => htr k' (List.mem_cons_of_mem _ hm)
      have ihp := drainRun g w rest htr' ws hws (setKey gen k (runJob g w k)) (cl ++ [k])
      have hfold : rest.foldl (fun r k' => setKey r k' (runJob g w k'))
          (setKey gen k (runJob g w k)) =
          (k :: rest).foldl (fun r k' => setKey r k' (runJob g w k')) gen := rfl
      have hcl : (cl ++ [k]) ++ rest = cl ++ (k :: rest) := by
        rw [List.append_assoc, List.singleton_append]
      rw [hfold, hcl] at ihp
      exact Relation.ReflTransGen.head step1 (Relation.ReflTransGen.head step2 ihp)

theorem exitsRun (g w : String → Except Thrown String)
    (gen : List (String × GeneratedImage)) (cl : List String) :
    ∀ (rest : List WorkerPC), (∀ pc ∈ rest, pc = WorkerPC.atLoop) →
    ∀ (pre : List WorkerPC), (∀ pc ∈ pre, pc = WorkerPC.finished) →
    Reachable g w ⟨[], pre ++ rest, gen, cl⟩
      ⟨[], pre ++ List.replicate rest.length WorkerPC.finished, gen, cl⟩
  | [], _, pre, _ => by
      rw [List.length_nil, List.replicate_zero]
  | pc :: rest', hrest, pre, hpre => by
      have hpc : pc = WorkerPC.atLoop := hrest pc (List.mem_cons_self _ _)
      subst hpc
      have hget : (pre ++ WorkerPC.atLoop :: rest')[pre.length]? = some WorkerPC.atLoop := by
        rw [List.getElem?_append_right (Nat.le_refl _)]
        simp
      have hset : (pre ++ WorkerPC.atLoop :: rest').set pre.length WorkerPC.finished =
          pre ++ WorkerPC.finished :: rest' := by
        rw [List.set_append_right _ _ (Nat.le_refl _)]
        simp
      have step1 : Step g w ⟨[], pre ++ WorkerPC.atLoop :: rest', gen, cl⟩
          ⟨[], (pre ++ WorkerPC.atLoop :: rest').set pre.length WorkerPC.finished, gen, cl⟩ :=
        Step.exitLoop ⟨[], pre ++ WorkerPC.atLoop :: rest', gen, cl⟩ pre.length hget rfl
      rw [hset] at step1
      have hrest' : ∀ pc' ∈ rest', pc' = WorkerPC.atLoop :=
        fun pc' hm => hrest pc' (List.mem_cons_of_mem _ hm)
      have hpre' : ∀ pc' ∈ pre ++ [WorkerPC.finished], pc' = WorkerPC.finished := by
        intro pc' hm
        rcases List.mem_append.mp hm with hm | hm
        · exact hpre pc' hm
        · exact List.mem_singleton.mp hm
      have ihp := exitsRun g w gen cl rest' hrest' (pre ++ [WorkerPC.finished]) hpre'
      have h1 : (pre ++ [WorkerPC.finished]) ++ rest' = pre ++ WorkerPC.finished :: rest' := by
        rw [List.append_assoc, List.singleton_append]
      have h2 : (pre ++ [WorkerPC.finished]) ++ List.replicate rest'.length WorkerPC.finished =
          pre ++ List.replicate (WorkerPC.atLoop :: rest').length WorkerPC.finished := by
        simp [List.replicate_succ]
      rw [h1, h2] at ihp
      exact Relation.ReflTransGen.head step1 ihp

/-- The record after a full dispatch: every style key settled. -/
def finalGen (g w : String → Except Thrown String) : List (String × GeneratedImage) :=
  STYLE_KEYS.foldl (fun r k => setKey r k (runJob g w k)) (initImages STYLE_KEYS)

/-- The state at which the concrete interleaving above ends. -/
def finalState (g w : String → Except Thrown String) : DispatchState :=
  { stylesQueue := []
    workers := List.replicate concurrencyLimit WorkerPC.finished
    generatedImages := finalGen g w
    claimed := STYLE_KEYS }

theorem execReachable (g w : String → Except Thrown String) :
    Reachable g w (initState STYLE_KEYS concurrencyLimit) (finalState g w) := by
  have htr : ∀ k ∈ STYLE_KEYS, k ≠ "" := by decide
  have hws : (List.replicate concurrencyLimit WorkerPC.atLoop)[0]? =
      some WorkerPC.atLoop := by decide
  have part1 := drainRun g w STYLE_KEYS htr
    (List.replicate concurrencyLimit WorkerPC.atLoop) hws (initImages STYLE_KEYS) []
  rw [List.nil_append] at part1
  have hall : ∀ pc ∈ List.replicate concurrencyLimit WorkerPC.atLoop,
      pc = WorkerPC.atLoop := fun pc hm => List.eq_of_mem_replicate hm
  have part2 := exitsRun g w
    (STYLE_KEYS.foldl (fun r k => setKey r k (runJob g w k)) (initImages STYLE_KEYS))
    STYLE_KEYS (List.replicate concurrencyLimit WorkerPC.atLoop) hall []
    (fun pc hm => absurd hm (List.not_mem_nil pc))
  rw [List.nil_append, List.nil_append, List.length_replicate] at part2
  exact Relation.ReflTransGen.trans part1 part2

theorem finalStateFinished (g w : String → Except Thrown String) :
    allFinished (finalState g w) :=
  fun _pc hm => List.eq_of_mem_replicate hm

/-! ## handleRegenerateStyle (part_000 lines 163-191) -/

/-- The effect of one handleRegenerateStyle call run to completion with no
interleaved writers.  images is the final record; writes lists, in order,
the values written for the requested key; workCalls counts how many times
the work function (generateStyledImage and the chained addWatermark) was
started. -/
structure RegenResult where
  images : List (String × GeneratedImage)
  writes : List GeneratedImage
  workCalls : Nat
deriving DecidableEq, Repr

/-- handleRegenerateStyle: returns early when no cropped image exists or
when the entry for the key is already pending; otherwise writes a pending
entry, runs the job, and writes the terminal entry. -/
def handleRegenerateStyle (cropped : Option String)
    (g w : String → Except Thrown String)
    (gen : List (String × GeneratedImage)) (styleKey : String) : RegenResult :=
  match cropped with
  | none => ⟨gen, [], 0⟩
  | some _ =>
    if (lookupKey gen styleKey).map GeneratedImage.status = some ImageStatus.pending then
      ⟨gen, [], 0⟩
    else
      ⟨setKey (setKey gen styleKey pendingEntry) styleKey (runJob g w styleKey),
        [pendingEntry, runJob g w styleKey], 1⟩

theorem runJobStatus (g w : String → Except Thrown String) (k : String) :
    (runJob g w k).status = ImageStatus.done ∨ (runJob g w k).status = ImageStatus.error := by
  cases hg : g k with
  | error e => exact Or.inr (by simp [runJob, hg])
  | ok r =>
    cases hw : w r with
    | error e => exact Or.inr (by simp [runJob, hg, hw])
    | ok u => exact Or.inl (by simp [runJob, hg, hw])

/-! ## handleDownloadAlbum (part_000 lines 212-243) -/

/-- JavaScript truthiness of the optional url field: undefined and the
empty string are falsy. -/
def jsTruthy : Option String → Bool
  | none => false
  | some s => s ≠ ""

/-- The filter predicate at line 216: image.status === done and image.url
truthy. -/
def doneWithUrl (e : GeneratedImage) : Bool :=
  e.status == ImageStatus.done && jsTruthy e.url

/-- The imageData object built at lines 215-221: entries with a done
status and a truthy url, re-keyed by display name via STYLES.  A key
outside STYLES would make the property access throw in JS; such entries
cannot occur in reachable records (their keys all lie in STYLE_KEYS), and
the model drops them. -/
def albumStep (acc : List (String × String)) (p : String × GeneratedImage) :
    List (String × String) :=
  match lookupKey STYLES p.1 with
  | some styleName => setKey acc styleName (p.2.url.getD "")
  | none => acc

def albumImageData (gen : List (String × GeneratedImage)) : List (String × String) :=
  (gen.filter fun p => doneWithUrl p.2).foldl albumStep []

/-- The observable outcome of handleDownloadAlbum: either the guard at
lines 223-226 fires (alert, early return, createAlbumPage never invoked)
or createAlbumPage is invoked on the completed imageData. -/
inductive AlbumOutcome where
  | refusal
  | composed (imageData : List (String × String))
deriving DecidableEq, Repr

def handleDownloadAlbum (gen : List (String × GeneratedImage)) : AlbumOutcome :=
  let d := albumImageData gen
  if d.length < STYLE_KEYS.length then AlbumOutcome.refusal else AlbumOutcome.composed d

/-! ## addWatermark (src/lib/imageUtils.ts) -/

/-- The DOM image element produced by loadImage, reduced to what
addWatermark reads.  Coordinates are rationals standing in for JS
numbers. -/
structure ImgElement where
  naturalWidth : Rat
  naturalHeight : Rat
deriving DecidableEq, Repr

/-- The drawing commands addWatermark issues on the 2D context, in
order. -/
inductive CanvasOp where
  | drawImage (img : ImgElement) (dx dy : Rat)
  | fillText (text : String) (x y : Rat)
deriving DecidableEq, Repr

/-- The canvas as addWatermark leaves it: dimensions, the final 2D context
configuration, and the issued drawing commands.  The font field keeps the
pixel size and family of the assigned font string. -/
structure CanvasState where
  width : Rat
  height : Rat
  fontSizePx : Rat
  fontFamily : String
  fillStyle : String
  textAlign : String
  textBaseline : String
  shadowColor : String
  shadowBlur : Rat
  shadowOffsetX : Rat
  shadowOffsetY : Rat
  ops : List CanvasOp
deriving DecidableEq, Repr

/-- The browser facilities addWatermark relies on: image decoding (none
models the onerror path of loadImage), availability of a 2D context
(getContext can return null), and JPEG encoding (toDataURL with the given
quality). -/
structure BrowserEnv where
  decodeImage : String → Option ImgElement
  ctx2dAvailable : Bool
  encodeJpeg : CanvasState → Rat → String

/-- loadImage (imageUtils.ts lines 7-15): resolves with the decoded image
or rejects with the failure message built from the first 50 characters of
the source. -/
def loadImage (env : BrowserEnv) (src : String) : Except String ImgElement :=
  match env.decodeImage src with
  | some img => Except.ok img
  | none => Except.error ("Failed to load image: " ++ (src.take 50) ++ "...")

def watermarkText : String := "psule.app"

/-- The canvas addWatermark builds for a decoded image: draw the image at
the origin, then fill the watermark text at the bottom-right corner inset
by the padding, right-aligned and bottom-baselined, with the configured
fill, font and shadow. -/
def watermarkCanvas (img : ImgElement) : CanvasState :=
  let w := img.naturalWidth
  let h := img.naturalHeight
  let padding := max 20 (w * (2 / 100))
  let fontSize := max 18 (w * (3 / 100))
  { width := w
    height := h
    fontSizePx := fontSize
    fontFamily := "Roboto, sans-serif"
    fillStyle := "rgba(255, 255, 255, 0.6)"
    textAlign := "right"
    textBaseline := "bottom"
    shadowColor := "rgba(0, 0, 0, 0.5)"
    shadowBlur := 5
    shadowOffsetX := 1
    shadowOffsetY := 1
    ops := [CanvasOp.drawImage img 0 0,
            CanvasOp.fillText watermarkText (w - padding) (h - padding)] }

/-- addWatermark (imageUtils.ts lines 22-56): load the image, throw when
no 2D context is available, otherwise draw and encode as JPEG at quality
0.9. -/
def addWatermark (env : BrowserEnv) (imageUrl : String) : Except String String :=
  match loadImage env imageUrl with
  | Except.error e => Except.error e
  | Except.ok img =>
    if env.ctx2dAvailable then
      Except.ok (env.encodeJpeg (watermarkCanvas img) (9 / 10))
    else
      Except.error "Could not get 2D canvas context"

/-! ## Shared concrete inputs for witnesses -/

def okGen : String → Except Thrown String := fun k => Except.ok (k ++ "-img")

def okWm : String → Except Thrown String := fun r => Except.ok (r ++ "-wm")

def mixedGen : String → Except Thrown String := fun k =>
  if k = "watercolor" then Except.error (Thrown.errorInstance "quota exceeded")
  else Except.ok (k ++ "-img")

/-! ## Shared settled-record fact -/

theorem settledAll (g w : String → Except Thrown String) {s : DispatchState}
    (h : Reachable g w (initState STYLE_KEYS concurrencyLimit) s)
    (hfin : allFinished s) :
    ∀ k ∈ STYLE_KEYS, lookupKey s.generatedImages k = some (runJob g w k) := by
  have hn : STYLE_KEYS.Nodup := by decide
  have hne : "" ∉ STYLE_KEYS := by decide
  have hi := invReachable hn hne h
  intro k hk
  have hq : s.stylesQueue = [] :=
    queueNilOfFinished hi hfin (by rw [workersLenReachable h]; decide)
  have hkc : k ∈ s.claimed := by
    have hsplit := hi.split
    rw [hq, List.append_nil] at hsplit
    rw [hsplit]
    exact hk
  exact hi.genSettled k hkc (fun i => noRunningOfFinished hfin i k)

/-! ## Claim theorems -/

/-- C1: in every dispatch call over STYLE_KEYS, every interleaving that
runs to completion has removed each style key from the shared queue and
started its work function (generateStyledImage chained with addWatermark,
wrapped in processStyle) exactly once: the claim log equals STYLE_KEYS,
so no key is skipped, and the log never holds a duplicate, so no two
workers ever claim the same key. -/
theorem dispatch_each_key_once (g w : String → Except Thrown String) (s : DispatchState)
    (h : Reachable g w (initState STYLE_KEYS concurrencyLimit) s) :
    s.claimed.Nodup ∧ (allFinished s → s.claimed = STYLE_KEYS) := by
  have hn : STYLE_KEYS.Nodup := by decide
  have hne : "" ∉ STYLE_KEYS := by decide
  have hi := invReachable hn hne h
  constructor
  · have hnodup : (s.claimed ++ s.stylesQueue).Nodup := by rw [hi.split]; exact hn
    exact (List.nodup_append.mp hnodup).1
  · intro hfin
    have hq : s.stylesQueue = [] :=
      queueNilOfFinished hi hfin (by rw [workersLenReachable h]; decide)
    have hsplit := hi.split
    rw [hq, List.append_nil] at hsplit
    exact hsplit

theorem dispatch_each_key_once_witness :
    (finalState okGen okWm).claimed = STYLE_KEYS :=
  (dispatch_each_key_once okGen okWm (finalState okGen okWm)
    (execReachable okGen okWm)).2 (finalStateFinished okGen okWm)

/-- C2: in every reachable interleaving of a dispatch call, the number of
keys claimed but not yet settled (the workers sitting inside await
processStyle) never exceeds the configured concurrency limit, 3. -/
theorem dispatch_concurrency_bound (g w : String → Except Thrown String)
    (s : DispatchState)
    (h : Reachable g w (initState STYLE_KEYS concurrencyLimit) s) :
    (runningKeys s).length ≤ concurrencyLimit := by
  have hlen : s.workers.length = concurrencyLimit := workersLenReachable h
  calc (runningKeys s).length ≤ s.workers.length := List.length_filterMap_le _ _
    _ = concurrencyLimit := hlen

theorem dispatch_concurrency_bound_witness :
    (runningKeys (initState STYLE_KEYS concurrencyLimit)).length ≤ concurrencyLimit :=
  dispatch_concurrency_bound okGen okWm _ Relation.ReflTransGen.refl

/-- C3: when Promise.all over the workers resolves (all workers have
finished), every style key holds a terminal entry in the result record;
the finished configuration is stable, so the completion signal (after
which appState is set to results-shown) fires exactly once; and from any
reachable point some continuation does reach the all-finished
configuration, so the signal does fire once all keys are terminal. -/
theorem dispatch_completion_signal (g w : String → Except Thrown String)
    (s : DispatchState)
    (h : Reachable g w (initState STYLE_KEYS concurrencyLimit) s) :
    (allFinished s → ∀ k ∈ STYLE_KEYS,
        ∃ e, lookupKey s.generatedImages k = some e ∧
          (e.status = ImageStatus.done ∨ e.status = ImageStatus.error)) ∧
    (allFinished s → ∀ s', ¬ Step g w s s') ∧
    (∃ s', Reachable g w s s' ∧ allFinished s') := by
  refine ⟨?_, fun hfin => finishedStable hfin, eventuallyFinished g w s⟩
  intro hfin k hk
  exact ⟨runJob g w k, settledAll g w h hfin k hk, runJobStatus g w k⟩

theorem dispatch_completion_signal_witness :
    ∃ s', Reachable okGen okWm (initState STYLE_KEYS concurrencyLimit) s' ∧
      allFinished s' :=
  (dispatch_completion_signal okGen okWm _ Relation.ReflTransGen.refl).2.2

/-- The ways the work of one key can fail: generateStyledImage rejects, or
it resolves and the chained addWatermark rejects. -/
def jobFails (g w : String → Except Thrown String) (k : String) (t : Thrown) : Prop :=
  g k = Except.error t ∨ ∃ r, g k = Except.ok r ∧ w r = Except.error t

theorem runJobOfFails {g w : String → Except Thrown String} {k : String} {t : Thrown}
    (hf : jobFails g w k t) :
    runJob g w k = { status := ImageStatus.error, error := some (errorMessage t) } := by
  rcases hf with hf | ⟨r, hg, hw⟩
  · simp [runJob, hf]
  · simp [runJob, hg, hw]

theorem runJobOfOk {g w : String → Except Thrown String} {k r u : String}
    (hg : g k = Except.ok r) (hw : w r = Except.ok u) :
    runJob g w k = { status := ImageStatus.done, url := some u } := by
  simp [runJob, hg, hw]

/-- C4: if the work of key k fails with thrown value t, then in every
completed interleaving k's entry is an error entry carrying errorMessage t
(the message of an Error instance, the generic text otherwise); the
failure aborts nothing: every key was still claimed exactly once, every
key still reaches a terminal entry, and every other key whose own work
succeeds ends done with its watermarked url. -/
theorem dispatch_failure_isolation (g w : String → Except Thrown String)
    (k : String) (t : Thrown) (s : DispatchState)
    (hk : k ∈ STYLE_KEYS) (hf : jobFails g w k t)
    (h : Reachable g w (initState STYLE_KEYS concurrencyLimit) s)
    (hfin : allFinished s) :
    lookupKey s.generatedImages k =
        some { status := ImageStatus.error, error := some (errorMessage t) } ∧
    s.claimed = STYLE_KEYS ∧
    (∀ k' ∈ STYLE_KEYS, ∃ e, lookupKey s.generatedImages k' = some e ∧
        (e.status = ImageStatus.done ∨ e.status = ImageStatus.error)) ∧
    (∀ (k' r u : String), k' ∈ STYLE_KEYS → k' ≠ k →
        g k' = Except.ok r → w r = Except.ok u →
        lookupKey s.generatedImages k' =
          some { status := ImageStatus.done, url := some u }) := by
  refine ⟨?_, ?_, ?_, ?_⟩
  · rw [settledAll g w h hfin k hk, runJobOfFails hf]
  · exact (dispatch_each_key_once g w s h).2 hfin
  · intro k' hk'
    exact ⟨runJob g w k', settledAll g w h hfin k' hk', runJobStatus g w k'⟩
  · intro k' r u hk' _ hg hw
    rw [settledAll g w h hfin k' hk', runJobOfOk hg hw]

theorem dispatch_failure_isolation_witness :
    lookupKey (finalState mixedGen okWm).generatedImages "watercolor" =
      some { status := ImageStatus.error,
             error := some (errorMessage (Thrown.errorInstance "quota exceeded")) } :=
  (dispatch_failure_isolation mixedGen okWm "watercolor"
    (Thrown.errorInstance "quota exceeded") (finalState mixedGen okWm)
    (by decide) (Or.inl (by simp [mixedGen]))
    (execReachable mixedGen okWm) (finalStateFinished mixedGen okWm)).1

/-- C5: re-running a key whose entry is pending is a no-op: the record is
returned unchanged (so no entry of any key moves), nothing is written for
the key, and the work function is not started. -/
theorem regenerate_pending_noop (cropped : Option String)
    (g w : String → Except Thrown String)
    (gen : List (String × GeneratedImage)) (k : String) (e : GeneratedImage)
    (hl : lookupKey gen k = some e) (hp : e.status = ImageStatus.pending) :
    handleRegenerateStyle cropped g w gen k = ⟨gen, [], 0⟩ := by
  cases cropped with
  | none => rfl
  | some img =>
    unfold handleRegenerateStyle
    rw [hl]
    simp [hp]

def pendingGen : List (String × GeneratedImage) := [("anime", pendingEntry)]

theorem regenerate_pending_noop_witness :
    handleRegenerateStyle (some "cropped") okGen okWm pendingGen "anime" =
      ⟨pendingGen, [], 0⟩ :=
  regenerate_pending_noop (some "cropped") okGen okWm pendingGen "anime" pendingEntry
    (by decide) rfl

/-- C6: every status update follows the allowed transitions.  Dispatch
steps only ever move an entry from pending to done or to error; the
explicit re-run of a terminal key writes exactly a pending entry followed
by a new terminal entry reflecting the latest outcome; and the re-run of
a pending key writes nothing.  No other transition occurs. -/
theorem status_transitions_allowed :
    (∀ (g w : String → Except Thrown String) (s s' : DispatchState),
        Reachable g w (initState STYLE_KEYS concurrencyLimit) s → Step g w s s' →
        ∀ (k : String) (e e' : GeneratedImage),
          lookupKey s.generatedImages k = some e →
          lookupKey s'.generatedImages k = some e' →
          e.status ≠ e'.status →
          e.status = ImageStatus.pending ∧
            (e'.status = ImageStatus.done ∨ e'.status = ImageStatus.error)) ∧
    (∀ (cropped : String) (g w : String → Except Thrown String)
        (gen : List (String × GeneratedImage)) (k : String) (e : GeneratedImage),
        lookupKey gen k = some e →
        (e.status = ImageStatus.done ∨ e.status = ImageStatus.error) →
        (handleRegenerateStyle (some cropped) g w gen k).writes =
            [pendingEntry, runJob g w k] ∧
          ((runJob g w k).status = ImageStatus.done ∨
            (runJob g w k).status = ImageStatus.error)) ∧
    (∀ (cropped : Option String) (g w : String → Except Thrown String)
        (gen : List (String × GeneratedImage)) (k : String) (e : GeneratedImage),
        lookupKey gen k = some e → e.status = ImageStatus.pending →
        (handleRegenerateStyle cropped g w gen k).writes = []) := by
  refine ⟨?_, ?_, ?_⟩
  · intro g w s s' hr hs k e e' hl hl' hne
    have hnd : STYLE_KEYS.Nodup := by decide
    have hns : "" ∉ STYLE_KEYS := by decide
    have hi := invReachable hnd hns hr
    cases hs with
    | claim i k0 rest hget hq hk0 =>
      rw [hl] at hl'
      exact absurd (congrArg GeneratedImage.status (Option.some.inj hl')) hne
    | claimSkip i rest hget hq =>
      rw [hl] at hl'
      exact absurd (congrArg GeneratedImage.status (Option.some.inj hl')) hne
    | exitLoop i hget hq =>
      rw [hl] at hl'
      exact absurd (congrArg GeneratedImage.status (Option.some.inj hl')) hne
    | settle i k0 hget =>
      by_cases hk : k = k0
      · subst hk
        have hpend : lookupKey s.generatedImages k = some pendingEntry :=
          hi.genPending k (Or.inr ⟨i, hget⟩)
        rw [hl] at hpend
        have he : e = pendingEntry := Option.some.inj hpend
        have hl2 : lookupKey (setKey s.generatedImages k (runJob g w k)) k = some e' := hl'
        rw [lookupKey_setKey_self] at hl2
        have he' : e' = runJob g w k := (Option.some.inj hl2).symm
        exact ⟨by rw [he]; rfl, he' ▸ runJobStatus g w k⟩
      · have hl2 : lookupKey (setKey s.generatedImages k0 (runJob g w k0)) k = some e' := hl'
        rw [lookupKey_setKey_ne _ _ _ _ hk, hl] at hl2
        exact absurd (congrArg GeneratedImage.status (Option.some.inj hl2)) hne
  · intro cropped g w gen k e hl hterm
    constructor
    · unfold handleRegenerateStyle
      rw [hl]
      rcases hterm with h | h <;> simp [h]
    · exact runJobStatus g w k
  · intro cropped g w gen k e hl hp
    cases cropped with
    | none => rfl
    | some img =>
      unfold handleRegenerateStyle
      rw [hl]
      simp [hp]

def doneGen : List (String × GeneratedImage) :=
  [("anime", { status := ImageStatus.done, url := some "u" })]

theorem status_transitions_allowed_witness :
    (handleRegenerateStyle (some "cropped") okGen okWm doneGen "anime").writes =
      [pendingEntry, runJob okGen okWm "anime"] :=
  (status_transitions_allowed.2.1 "cropped" okGen okWm doneGen "anime"
    { status := ImageStatus.done, url := some "u" } (by decide) (Or.inl rfl)).1

/-- C8 counterexample: the claim that the status representation makes
illegal states unrepresentable is false: GeneratedImage, as declared in
the source, is a record with independent optional url and error fields,
and a value holding both at once (even with a pending status) inhabits
it. -/
theorem status_sum_type_counterexample :
    ¬ ∀ e : GeneratedImage, ¬ (e.url.isSome = true ∧ e.error.isSome = true) :=
  fun h =>
    h { status := ImageStatus.pending, url := some "u", error := some "boom" } ⟨rfl, rfl⟩

/-- C8 amended: the per-job status value is a record with a status tag and
two loosely-related optional fields, so states holding both a result url
and an error reason (here even under a pending tag) are representable in
the type itself; they are merely never written at runtime. -/
theorem status_optional_fields_representable :
    ∃ e : GeneratedImage, e.status = ImageStatus.pending ∧
      e.url = some "u" ∧ e.error = some "boom" :=
  ⟨{ status := ImageStatus.pending, url := some "u", error := some "boom" }, rfl, rfl, rfl⟩

/-- C9 amended: addWatermark, given an image that decodes (loadImage
resolves) and an available 2D canvas context, succeeds and returns the
JPEG encoding (quality 0.9) of a canvas holding exactly the source image
drawn at the origin followed by the fixed text mark psule.app filled at
the bottom-right corner inset by the padding, right-aligned on the bottom
baseline. -/
theorem addWatermark_success (env : BrowserEnv) (img : ImgElement) (url : String)
    (hd : env.decodeImage url = some img) (hc : env.ctx2dAvailable = true) :
    addWatermark env url = Except.ok (env.encodeJpeg (watermarkCanvas img) (9 / 10)) ∧
    (watermarkCanvas img).ops =
      [CanvasOp.drawImage img 0 0,
       CanvasOp.fillText watermarkText
         (img.naturalWidth - max 20 (img.naturalWidth * (2 / 100)))
         (img.naturalHeight - max 20 (img.naturalWidth * (2 / 100)))] ∧
    (watermarkCanvas img).textAlign = "right" ∧
    (watermarkCanvas img).textBaseline = "bottom" := by
  refine ⟨?_, rfl, rfl, rfl⟩
  simp [addWatermark, loadImage, hd, hc]

def demoEnv : BrowserEnv :=
  { decodeImage := fun _ => some ⟨100, 80⟩
    ctx2dAvailable := true
    encodeJpeg := fun _ _ => "data:image/jpeg;base64,demo" }

theorem addWatermark_success_witness :
    addWatermark demoEnv "img" =
      Except.ok (demoEnv.encodeJpeg (watermarkCanvas ⟨100, 80⟩) (9 / 10)) :=
  (addWatermark_success demoEnv ⟨100, 80⟩ "img" rfl rfl).1

def noCtxEnv : BrowserEnv :=
  { decodeImage := fun _ => some ⟨100, 80⟩
    ctx2dAvailable := false
    encodeJpeg := fun _ _ => "data:image/jpeg;base64,demo" }

/-- C9 counterexample: addWatermark does not always succeed on a valid
image: when getContext returns null it throws, as the explicit throw in
imageUtils.ts line 30 shows; the environment with no 2D context and a
decodable image exhibits the rejection. -/
theorem addWatermark_throws_counterexample :
    ¬ ∀ (env : BrowserEnv) (url : String) (img : ImgElement),
        env.decodeImage url = some img →
        ∃ out, addWatermark env url = Except.ok out := by
  intro h
  obtain ⟨out, hout⟩ := h noCtxEnv "img" ⟨100, 80⟩ rfl
  simp [addWatermark, loadImage, noCtxEnv] at hout

/-- The shape every entry ever written must have: done entries carry a
url and no error, error entries carry a reason and no url, pending
entries carry neither, and no entry carries both payloads. -/
def WFentry (e : GeneratedImage) : Prop :=
  (e.status = ImageStatus.done → e.url.isSome = true ∧ e.error = none) ∧
  (e.status = ImageStatus.error → e.error.isSome = true ∧ e.url = none) ∧
  (e.status = ImageStatus.pending → e.url = none ∧ e.error = none) ∧
  ¬ (e.url.isSome = true ∧ e.error.isSome = true)

theorem wfPending : WFentry pendingEntry := by
  refine ⟨?_, ?_, ?_, ?_⟩ <;> simp [pendingEntry, WFentry]

theorem wfRunJob (g w : String → Except Thrown String) (k : String) :
    WFentry (runJob g w k) := by
  cases hg : g k with
  | error e => refine ⟨?_, ?_, ?_, ?_⟩ <;> simp [runJob, hg]
  | ok r =>
    cases hw : w r with
    | error e => refine ⟨?_, ?_, ?_, ?_⟩ <;> simp [runJob, hg, hw]
    | ok u => refine ⟨?_, ?_, ?_, ?_⟩ <;> simp [runJob, hg, hw]

/-- C10: every entry held by the result record in any reachable dispatch
state, and every entry held after a re-run applied to a well-formed
record, is well formed: done implies a url, error implies a reason,
pending implies neither, and no entry ever holds both a result and an
error reason. -/
theorem mapping_wellformed :
    (∀ (g w : String → Except Thrown String) (c : Nat) (s : DispatchState),
        Reachable g w (initState STYLE_KEYS c) s →
        ∀ (k : String) (e : GeneratedImage),
          lookupKey s.generatedImages k = some e → WFentry e) ∧
    (∀ (cropped : Option String) (g w : String → Except Thrown String)
        (gen : List (String × GeneratedImage)) (k : String),
        (∀ (k' : String) (e : GeneratedImage), lookupKey gen k' = some e → WFentry e) →
        ∀ (k' : String) (e : GeneratedImage),
          lookupKey (handleRegenerateStyle cropped g w gen k).images k' = some e →
            WFentry e) := by
  constructor
  · intro g w c s h k e hl
    have hnd : STYLE_KEYS.Nodup := by decide
    have hns : "" ∉ STYLE_KEYS := by decide
    have hi := invReachable hnd hns h
    by_cases hk : k ∈ STYLE_KEYS
    · have hk2 : k ∈ s.claimed ++ s.stylesQueue := by rw [hi.split]; exact hk
      rcases List.mem_append.mp hk2 with hkc | hkq
      · by_cases hrun : ∃ i : Nat, s.workers[i]? = some (WorkerPC.running k)
        · have := hi.genPending k (Or.inr hrun)
          rw [hl] at this
          rw [Option.some.inj this]
          exact wfPending
        · push_neg at hrun
          have := hi.genSettled k hkc hrun
          rw [hl] at this
          rw [Option.some.inj this]
          exact wfRunJob g w k
      · have := hi.genPending k (Or.inl hkq)
        rw [hl] at this
        rw [Option.some.inj this]
        exact wfPending
    · have hnm : k ∉ recKeys s.generatedImages := by rw [hi.genDom]; exact hk
      rw [lookupKey_none_of_not_mem _ _ hnm] at hl
      exact Option.noConfusion hl
  · intro cropped g w gen k hWF k' e hl
    cases cropped with
    | none => exact hWF k' e hl
    | some img =>
      by_cases hc : (lookupKey gen k).map GeneratedImage.status = some ImageStatus.pending
      · rw [show (handleRegenerateStyle (some img) g w gen k).images = gen by
          unfold handleRegenerateStyle; rw [if_pos hc]] at hl
        exact hWF k' e hl
      · rw [show (handleRegenerateStyle (some img) g w gen k).images =
            setKey (setKey gen k pendingEntry) k (runJob g w k) by
          unfold handleRegenerateStyle; rw [if_neg hc]] at hl
        by_cases hk' : k' = k
        · subst hk'
          rw [lookupKey_setKey_self] at hl
          rw [(Option.some.inj hl).symm]
          exact wfRunJob g w k'
        · rw [lookupKey_setKey_ne _ _ _ _ hk', lookupKey_setKey_ne _ _ _ _ hk'] at hl
          exact hWF k' e hl

theorem mapping_wellformed_witness : WFentry pendingEntry :=
  mapping_wellformed.1 okGen okWm concurrencyLimit (initState STYLE_KEYS concurrencyLimit)
    Relation.ReflTransGen.refl "digital-painting" pendingEntry (by decide)

/-! ## C7 helpers: counting the album entries -/

theorem doneWithUrl_iff (e : GeneratedImage) :
    doneWithUrl e = true ↔ e.status = ImageStatus.done ∧ jsTruthy e.url = true := by
  unfold doneWithUrl
  rw [Bool.and_eq_true, beq_iff_eq]

theorem albumStep_length_le (acc : List (String × String)) (p : String × GeneratedImage) :
    (albumStep acc p).length ≤ acc.length + 1 := by
  cases h : lookupKey STYLES p.1 with
  | none => simp [albumStep, h]
  | some n => simpa [albumStep, h] using length_setKey_le acc n (p.2.url.getD "")

theorem albumFold_length :
    ∀ (l : List (String × GeneratedImage)) (acc : List (String × String)),
      (l.foldl albumStep acc).length ≤ acc.length + l.length
  | [], acc => by simp
  | p :: rest, acc => by
      rw [List.foldl_cons]
      have h1 := albumFold_length rest (albumStep acc p)
      have h2 := albumStep_length_le acc p
      simp only [List.length_cons]
      omega

theorem albumFold_mem_mono :
    ∀ (l : List (String × GeneratedImage)) (acc : List (String × String)) (n : String),
      n ∈ recKeys acc → n ∈ recKeys (l.foldl albumStep acc)
  | [], _, _, h => by simpa using h
  | p :: rest, acc, n, h => by
      rw [List.foldl_cons]
      apply albumFold_mem_mono rest _ n
      unfold albumStep
      cases hq : lookupKey STYLES p.1 with
      | none => exact h
      | some nm => exact mem_recKeys_setKey _ _ _ _ h

theorem albumFold_mem_add :
    ∀ (l : List (String × GeneratedImage)) (acc : List (String × String))
      (p : String × GeneratedImage) (n : String),
      p ∈ l → lookupKey STYLES p.1 = some n →
      n ∈ recKeys (l.foldl albumStep acc)
  | [], _, p, _, hp, _ => absurd hp (List.not_mem_nil p)
  | q :: rest, acc, p, n, hp, hlook => by
      rw [List.foldl_cons]
      rcases List.mem_cons.mp hp with hp | hp
      · subst hp
        apply albumFold_mem_mono
        unfold albumStep
        rw [hlook]
        exact self_mem_recKeys_setKey _ _ _
      · exact albumFold_mem_add rest (albumStep acc q) p n hp hlook

theorem nodupSubsetLength {α : Type} [DecidableEq α] {l1 l2 : List α}
    (hn : l1.Nodup) (hs : ∀ a ∈ l1, a ∈ l2) : l1.length ≤ l2.length := by
  calc l1.length = l1.toFinset.card := (List.toFinset_card_of_nodup hn).symm
    _ ≤ l2.toFinset.card :=
      Finset.card_le_card (fun a ha => List.mem_toFinset.mpr (hs a (List.mem_toFinset.mp ha)))
    _ ≤ l2.length := l2.toFinset_card_le

theorem filterLengthAll {α : Type} (p : α → Bool) :
    ∀ l : List α, (l.filter p).length = l.length → ∀ a ∈ l, p a = true
  | [], _, a, ha => absurd ha (List.not_mem_nil a)
  | x :: xs, h, a, ha => by
      by_cases hx : p x = true
      · rw [List.filter_cons, if_pos hx] at h
        simp only [List.length_cons] at h
        have hrec := filterLengthAll p xs (Nat.succ.inj h)
        rcases List.mem_cons.mp ha with ha | ha
        · exact ha ▸ hx
        · exact hrec a ha
      · rw [List.filter_cons, if_neg hx] at h
        simp only [List.length_cons] at h
        have hle := List.length_filter_le p xs
        omega

/-- C7: handleDownloadAlbum composes nothing unless every style key is
terminal-success.  When any style key lacks a done entry with a truthy
url, the length guard fires: the user sees the refusal alert and
createAlbumPage is never invoked; conversely the compositing call runs
exactly when all style keys are done with a result. -/
theorem album_requires_all_done (gen : List (String × GeneratedImage))
    (hn : (recKeys gen).Nodup) (hsub : ∀ k ∈ recKeys gen, k ∈ STYLE_KEYS) :
    (handleDownloadAlbum gen ≠ AlbumOutcome.refusal →
      ∀ k ∈ STYLE_KEYS, ∃ e, lookupKey gen k = some e ∧
        e.status = ImageStatus.done ∧ jsTruthy e.url = true) ∧
    ((∀ k ∈ STYLE_KEYS, ∃ e, lookupKey gen k = some e ∧
        e.status = ImageStatus.done ∧ jsTruthy e.url = true) →
      handleDownloadAlbum gen ≠ AlbumOutcome.refusal) ∧
    ((∃ k ∈ STYLE_KEYS, ∀ e, lookupKey gen k = some e →
        ¬ (e.status = ImageStatus.done ∧ jsTruthy e.url = true)) →
      handleDownloadAlbum gen = AlbumOutcome.refusal) := by
  have partA : handleDownloadAlbum gen ≠ AlbumOutcome.refusal →
      ∀ k ∈ STYLE_KEYS, ∃ e, lookupKey gen k = some e ∧
        e.status = ImageStatus.done ∧ jsTruthy e.url = true := by
    intro hnr k hk
    have hnl : ¬ ((albumImageData gen).length < STYLE_KEYS.length) := by
      intro hlt
      apply hnr
      show (if (albumImageData gen).length < STYLE_KEYS.length then AlbumOutcome.refusal
        else AlbumOutcome.composed (albumImageData gen)) = AlbumOutcome.refusal
      rw [if_pos hlt]
    have hfl : (albumImageData gen).length ≤
        (gen.filter fun p => doneWithUrl p.2).length := by
      have := albumFold_length (gen.filter fun p => doneWithUrl p.2) []
      simpa [albumImageData] using this
    have hfilter_le := List.length_filter_le (fun p => doneWithUrl p.2) gen
    have hgenlen : (recKeys gen).length = gen.length := List.length_map gen Prod.fst
    have hkeyslen : (recKeys gen).length ≤ STYLE_KEYS.length := nodupSubsetLength hn hsub
    have hall : ∀ p ∈ gen, doneWithUrl p.2 = true :=
      filterLengthAll (fun p => doneWithUrl p.2) gen (by omega)
    have hcover : k ∈ recKeys gen := by
      have hcardA : (recKeys gen).toFinset.card = (recKeys gen).length :=
        List.toFinset_card_of_nodup hn
      have hsubF : (recKeys gen).toFinset ⊆ STYLE_KEYS.toFinset := fun a ha =>
        List.mem_toFinset.mpr (hsub a (List.mem_toFinset.mp ha))
      have hcardB : STYLE_KEYS.toFinset.card ≤ STYLE_KEYS.length :=
        STYLE_KEYS.toFinset_card_le
      have heq : (recKeys gen).toFinset = STYLE_KEYS.toFinset :=
        Finset.eq_of_subset_of_card_le hsubF (by omega)
      have : k ∈ (recKeys gen).toFinset := by
        rw [heq]
        exact List.mem_toFinset.mpr hk
      exact List.mem_toFinset.mp this
    obtain ⟨e, he⟩ := exists_lookupKey_of_mem gen k hcover
    have hmem : (k, e) ∈ gen := lookupKey_mem gen k e he
    have hgood := (doneWithUrl_iff e).mp (hall (k, e) hmem)
    exact ⟨e, he, hgood.1, hgood.2⟩
  have partB : (∀ k ∈ STYLE_KEYS, ∃ e, lookupKey gen k = some e ∧
      e.status = ImageStatus.done ∧ jsTruthy e.url = true) →
      handleDownloadAlbum gen ≠ AlbumOutcome.refusal := by
    intro hall href
    have hlt : (albumImageData gen).length < STYLE_KEYS.length := by
      by_contra hge
      have : handleDownloadAlbum gen = AlbumOutcome.composed (albumImageData gen) := by
        show (if (albumImageData gen).length < STYLE_KEYS.length then AlbumOutcome.refusal
          else AlbumOutcome.composed (albumImageData gen)) = _
        rw [if_neg hge]
      rw [this] at href
      exact AlbumOutcome.noConfusion href
    have hnames : ∀ n ∈ STYLES.map Prod.snd, n ∈ recKeys (albumImageData gen) := by
      intro n hnm
      obtain ⟨q, hq, hqn⟩ := List.mem_map.mp hnm
      have hkmem : q.1 ∈ STYLE_KEYS := List.mem_map.mpr ⟨q, hq, rfl⟩
      have hlook : lookupKey STYLES q.1 = some n := by
        apply lookupKey_of_mem_nodup STYLES q.1 n (by decide)
        have : q = (q.1, n) := by
          cases q with
          | mk a b => rw [← hqn]
        exact this ▸ hq
      obtain ⟨e, he, hstat, hurl⟩ := hall q.1 hkmem
      have hmem : (q.1, e) ∈ gen := lookupKey_mem gen q.1 e he
      have hfmem : (q.1, e) ∈ gen.filter fun p => doneWithUrl p.2 :=
        List.mem_filter.mpr ⟨hmem, (doneWithUrl_iff e).mpr ⟨hstat, hurl⟩⟩
      exact albumFold_mem_add _ [] (q.1, e) n hfmem hlook
    have hlen : (STYLES.map Prod.snd).length ≤ (recKeys (albumImageData gen)).length :=
      nodupSubsetLength (by decide) hnames
    have h1 : (recKeys (albumImageData gen)).length = (albumImageData gen).length :=
      List.length_map _ _
    have h2 : (STYLES.map Prod.snd).length = STYLE_KEYS.length := by decide
    omega
  refine ⟨partA, partB, ?_⟩
  intro ⟨k, hk, hbad⟩
  by_cases heq : handleDownloadAlbum gen = AlbumOutcome.refusal
  · exact heq
  · obtain ⟨e, he, hstat, hurl⟩ := partA heq k hk
    exact absurd ⟨hstat, hurl⟩ (hbad e he)

def genAll : List (String × GeneratedImage) :=
  STYLES.map fun p => (p.1, { status := ImageStatus.done, url := some "u" })

theorem album_requires_all_done_witness :
    handleDownloadAlbum genAll ≠ AlbumOutcome.refusal :=
  (album_requires_all_done genAll (by decide) (by decide)).2.1
    (fun k hk => ⟨{ status := ImageStatus.done, url := some "u" },
      by revert k hk; decide, rfl, by decide⟩)

end Psule
